import Mathlib

/-!
Shallow embedding of the pianolizer sliding-DFT engine, translated from
src/sdft.js (classes `Complex`, `RingBuffer`, `SlidingDFT`) and
src/js/pianolizer.js (class `PianolizerNode`).

Audio samples and the accumulated engine quantities are modelled as exact
rationals; the one irrational ingredient, the rotation coefficient
`e^{i 2 pi k / N}` produced by `Complex.exp` at construction time, is taken
as an abstract complex parameter, characterised where a claim needs it by
the algebraic property `coeff ^ N = 1` that the concrete value satisfies.
-/

namespace Pianolizer

/-- `class Complex` of src/sdft.js (lines 1-41): a complex number stored as
its real and imaginary parts. -/
structure Complex where
  re : ℚ
  im : ℚ
deriving DecidableEq

namespace Complex

@[ext] theorem ext {z w : Complex} (h1 : z.re = w.re) (h2 : z.im = w.im) : z = w := by
  cases z; cases w; cases h1; cases h2; rfl

/-- the `add` method (src/sdft.js lines 7-12). -/
def add (z w : Complex) : Complex := ⟨z.re + w.re, z.im + w.im⟩

/-- the `sub` method (src/sdft.js lines 14-19). -/
def sub (z w : Complex) : Complex := ⟨z.re - w.re, z.im - w.im⟩

/-- the `mul` method (src/sdft.js lines 21-26). -/
def mul (z w : Complex) : Complex :=
  ⟨z.re * w.re - z.im * w.im, z.re * w.im + z.im * w.re⟩

/-- negation, used only to assemble the ring structure on `Complex`. -/
def neg (z : Complex) : Complex := ⟨-z.re, -z.im⟩

/-- the square of the `magnitude` getter (src/sdft.js lines 35-40):
`magnitude` returns `sqrt (re*re + im*im)`, which is irrational in general,
so the development tracks its square `re*re + im*im` instead. -/
def magSq (z : Complex) : ℚ := z.re * z.re + z.im * z.im

/-- `new Complex(x, 0)`: embedding of a real sample, as built by
`SlidingDFT.process` (src/sdft.js lines 113-114). -/
def ofQ (q : ℚ) : Complex := ⟨q, 0⟩

theorem add_assoc0 (a b c : Complex) : add (add a b) c = add a (add b c) := by
  ext <;> simp only [add] <;> ring

theorem add_comm0 (a b : Complex) : add a b = add b a := by
  ext <;> simp only [add] <;> ring

theorem zero_add0 (a : Complex) : add ⟨0, 0⟩ a = a := by
  ext <;> simp only [add] <;> ring

theorem add_zero0 (a : Complex) : add a ⟨0, 0⟩ = a := by
  ext <;> simp only [add] <;> ring

theorem neg_add_cancel0 (a : Complex) : add (neg a) a = ⟨0, 0⟩ := by
  ext <;> simp only [add, neg] <;> ring

theorem mul_assoc0 (a b c : Complex) : mul (mul a b) c = mul a (mul b c) := by
  ext <;> simp only [mul] <;> ring

theorem one_mul0 (a : Complex) : mul ⟨1, 0⟩ a = a := by
  ext <;> simp only [mul] <;> ring

theorem mul_one0 (a : Complex) : mul a ⟨1, 0⟩ = a := by
  ext <;> simp only [mul] <;> ring

theorem zero_mul0 (a : Complex) : mul ⟨0, 0⟩ a = ⟨0, 0⟩ := by
  ext <;> simp only [mul] <;> ring

theorem mul_zero0 (a : Complex) : mul a ⟨0, 0⟩ = ⟨0, 0⟩ := by
  ext <;> simp only [mul] <;> ring

theorem mul_comm0 (a b : Complex) : mul a b = mul b a := by
  ext <;> simp only [mul] <;> ring

theorem left_distrib0 (a b c : Complex) : mul a (add b c) = add (mul a b) (mul a c) := by
  ext <;> simp only [mul, add] <;> ring

theorem right_distrib0 (a b c : Complex) : mul (add a b) c = add (mul a c) (mul b c) := by
  ext <;> simp only [mul, add] <;> ring

theorem sub_eq_add_neg0 (a b : Complex) : sub a b = add a (neg b) := by
  ext <;> simp only [sub, add, neg] <;> ring

instance instZero : Zero Complex := ⟨⟨0, 0⟩⟩

instance instOne : One Complex := ⟨⟨1, 0⟩⟩

instance instAdd : Add Complex := ⟨add⟩

instance instNeg : Neg Complex := ⟨neg⟩

instance instSub : Sub Complex := ⟨sub⟩

instance instMul : Mul Complex := ⟨mul⟩

instance instCommRing : CommRing Complex where
  add := (· + ·)
  add_assoc := add_assoc0
  zero := 0
  zero_add := zero_add0
  add_zero := add_zero0
  add_comm := add_comm0
  mul := (· * ·)
  mul_assoc := mul_assoc0
  one := 1
  one_mul := one_mul0
  mul_one := mul_one0
  zero_mul := zero_mul0
  mul_zero := mul_zero0
  mul_comm := mul_comm0
  left_distrib := left_distrib0
  right_distrib := right_distrib0
  neg := (- ·)
  sub := (· - ·)
  nsmul := nsmulRec
  zsmul := zsmulRec
  sub_eq_add_neg := sub_eq_add_neg0
  neg_add_cancel := neg_add_cancel0

@[simp] theorem add_re (z w : Complex) : (z + w).re = z.re + w.re := rfl

@[simp] theorem add_im (z w : Complex) : (z + w).im = z.im + w.im := rfl

@[simp] theorem sub_re (z w : Complex) : (z - w).re = z.re - w.re := rfl

@[simp] theorem sub_im (z w : Complex) : (z - w).im = z.im - w.im := rfl

@[simp] theorem mul_re (z w : Complex) : (z * w).re = z.re * w.re - z.im * w.im := rfl

@[simp] theorem mul_im (z w : Complex) : (z * w).im = z.re * w.im + z.im * w.re := rfl

@[simp] theorem zero_re : (0 : Complex).re = 0 := rfl

@[simp] theorem zero_im : (0 : Complex).im = 0 := rfl

@[simp] theorem one_re : (1 : Complex).re = 1 := rfl

@[simp] theorem one_im : (1 : Complex).im = 0 := rfl

@[simp] theorem ofQ_re (q : ℚ) : (ofQ q).re = q := rfl

@[simp] theorem ofQ_im (q : ℚ) : (ofQ q).im = 0 := rfl

theorem add_def (z w : Complex) : z.add w = z + w := rfl

theorem sub_def (z w : Complex) : z.sub w = z - w := rfl

theorem mul_def (z w : Complex) : z.mul w = z * w := rfl

@[simp] theorem ofQ_zero : ofQ 0 = 0 := rfl

theorem magSq_mul (z w : Complex) : magSq (z * w) = magSq z * magSq w := by
  simp only [magSq, mul_re, mul_im]
  ring

end Complex

/-- the buffer capacity `1 << bits` for the default `bits = 16`
(src/sdft.js lines 44-49); both classes in the repository construct the
ring buffer with the default size. -/
def RingBuffer.size : ℕ := 65536

/-- `class RingBuffer` of src/sdft.js (lines 43-59): a power-of-two sized
circular buffer of past samples.  The backing `Float32Array` (zero filled
on construction) is modelled as a function from slot number to sample; the
mask `size - 1` on the monotonically increasing write cursor is modelled
as reduction mod `size`. -/
structure RingBuffer where
  buffer : ℕ → ℚ
  index : ℕ

namespace RingBuffer

/-- a freshly constructed `RingBuffer` (src/sdft.js lines 44-49): all
slots zero, cursor at 0. -/
def init : RingBuffer := ⟨fun _ => 0, 0⟩

/-- the `write` method (src/sdft.js lines 51-53): store at the cursor
(`(this.index++) & this.mask`), then advance the cursor. -/
def write (rb : RingBuffer) (value : ℚ) : RingBuffer :=
  ⟨fun j => if j = rb.index % size then value else rb.buffer j, rb.index + 1⟩

/-- the `read` method (src/sdft.js lines 55-58):
`this.buffer[(this.index + (~index)) & this.mask]`.  In 32-bit integer
arithmetic `~i = -i - 1`, so the slot read is `(index - i - 1) mod size`,
computed here over ℤ with `emod` to capture the wraparound of the
bitwise mask for cursors smaller than the lookback. -/
def read (rb : RingBuffer) (i : ℕ) : ℚ :=
  rb.buffer ((((rb.index : ℤ) - (i : ℤ) - 1) % (size : ℤ)).toNat)

/-- feeding a whole list of samples through `write`, in order. -/
def writeAll (rb : RingBuffer) (xs : List ℚ) : RingBuffer :=
  xs.foldl write rb

@[simp] theorem writeAll_nil (rb : RingBuffer) : rb.writeAll [] = rb := rfl

@[simp] theorem writeAll_cons (rb : RingBuffer) (x : ℚ) (xs : List ℚ) :
    rb.writeAll (x :: xs) = (rb.write x).writeAll xs := rfl

theorem writeAll_append (rb : RingBuffer) (xs ys : List ℚ) :
    rb.writeAll (xs ++ ys) = (rb.writeAll xs).writeAll ys := by
  simp [writeAll, List.foldl_append]

@[simp] theorem write_index (rb : RingBuffer) (v : ℚ) :
    (rb.write v).index = rb.index + 1 := rfl

theorem writeAll_index (rb : RingBuffer) (xs : List ℚ) :
    (rb.writeAll xs).index = rb.index + xs.length := by
  induction xs generalizing rb with
  | nil => simp
  | cons x xs ih => simp [ih, Nat.add_assoc, Nat.add_comm 1]

@[simp] theorem init_read (i : ℕ) : init.read i = 0 := rfl

/-- the sample just written is at lookback 0. -/
theorem read_write_zero (rb : RingBuffer) (v : ℚ) : (rb.write v).read 0 = v := by
  simp only [read, write, size, Nat.cast_ofNat]
  split
  · rfl
  · exfalso; omega

/-- a write shifts every other in-range lookback by one. -/
theorem read_write_succ (rb : RingBuffer) (v : ℚ) (d : ℕ) (h : d + 1 < size) :
    (rb.write v).read (d + 1) = rb.read d := by
  simp only [size] at h
  simp only [read, write, size, Nat.cast_ofNat]
  split
  · exfalso; omega
  · congr 1; omega


/-- after a burst of writes, lookbacks beyond the burst see the older state. -/
theorem read_writeAll_ge (rb : RingBuffer) (xs : List ℚ) (d : ℕ)
    (hd : d < size) (hlen : xs.length ≤ d) :
    (rb.writeAll xs).read d = rb.read (d - xs.length) := by
  induction xs generalizing rb d with
  | nil => simp
  | cons x xs ih =>
    simp only [writeAll_cons]
    simp only [List.length_cons] at hlen
    rw [ih (rb.write x) d hd (by omega)]
    have h3 : d - xs.length = (d - (xs.length + 1)) + 1 := by omega
    rw [h3, read_write_succ _ _ _ (by omega)]
    congr 1

/-- after a burst of writes, lookback `d` inside the burst returns the
sample written `d` writes before the last one of the burst. -/
theorem read_writeAll_lt (rb : RingBuffer) (xs : List ℚ) (d : ℕ)
    (hd : d < size) (hlen : d < xs.length) :
    (rb.writeAll xs).read d = xs.getD (xs.length - 1 - d) 0 := by
  induction xs generalizing rb d with
  | nil => simp at hlen
  | cons x xs ih =>
    simp only [writeAll_cons]
    rcases Nat.lt_or_ge d xs.length with h | h
    · rw [ih (rb.write x) d hd h]
      have hidx : (x :: xs).length - 1 - d = (xs.length - 1 - d) + 1 := by
        simp only [List.length_cons]
        omega
      rw [hidx, List.getD_cons_succ]
    · simp only [List.length_cons] at hlen
      have hdx : d = xs.length := by omega
      rw [read_writeAll_ge (rb.write x) xs d hd (by omega)]
      rw [show d - xs.length = 0 by omega, read_write_zero]
      rw [show (x :: xs).length - 1 - d = 0 by simp only [List.length_cons]; omega]
      rw [List.getD_cons_zero]

end RingBuffer

/-- the mutable state of the `SlidingDFT` worklet of src/sdft.js that the
per-sample loop touches: the shared ring buffer, the accumulated complex
spectral value `dft`, and the running window power `totalPower`. -/
structure SDFTState where
  rb : RingBuffer
  dft : Complex
  totalPower : ℚ

/-- the state established by the `SlidingDFT` constructor
(src/sdft.js lines 62-77): fresh zero ring buffer, `dft = new Complex()`
(that is `(0, 0)`), `totalPower = 0`. -/
def initState : SDFTState := ⟨RingBuffer.init, ⟨0, 0⟩, 0⟩

/-- one iteration of the per-sample loop of `SlidingDFT.process`
(src/sdft.js lines 110-119): write the current sample into the ring
buffer, read back the sample `N` writes older, update the accumulated
value by `S := (S - previous + current) * coeff` and the window power by
`P := P - previous^2 + current^2`.  The window length `N` and the rotation
coefficient `coeff` are the construction-time constants of the worklet. -/
def stepSample (N : ℕ) (coeff : Complex) (s : SDFTState) (x : ℚ) : SDFTState :=
  let rb := s.rb.write x
  let previous := rb.read N
  { rb := rb
    dft := ((s.dft.sub (Complex.ofQ previous)).add (Complex.ofQ x)).mul coeff
    totalPower := s.totalPower - previous * previous + x * x }

/-- the per-sample loop of `SlidingDFT.process` over one block of
samples, consumed in arrival order (src/sdft.js lines 110-119). -/
def processSamples (N : ℕ) (coeff : Complex) (s : SDFTState) (xs : List ℚ) : SDFTState :=
  xs.foldl (stepSample N coeff) s

/-- the engine state after the first `n` samples of the stream `x` have
been fed through the per-sample loop, starting from the freshly
constructed state. -/
def run (N : ℕ) (coeff : Complex) (x : ℕ → ℚ) : ℕ → SDFTState
  | 0 => initState
  | n + 1 => stepSample N coeff (run N coeff x n) (x n)

theorem processSamples_nil (N : ℕ) (c : Complex) (s : SDFTState) :
    processSamples N c s [] = s := rfl

theorem processSamples_append (N : ℕ) (c : Complex) (s : SDFTState) (xs ys : List ℚ) :
    processSamples N c s (xs ++ ys) = processSamples N c (processSamples N c s xs) ys := by
  simp [processSamples, List.foldl_append]

/-- `run` is the block loop applied to the first `n` stream samples. -/
theorem run_eq_processSamples (N : ℕ) (c : Complex) (x : ℕ → ℚ) (n : ℕ) :
    run N c x n = processSamples N c initState ((List.range n).map x) := by
  induction n with
  | zero => rfl
  | succ n ih =>
    rw [List.range_succ, List.map_append, processSamples_append, ← ih]
    rfl

/-- the ring buffer component of the running engine is exactly the
written sample history. -/
theorem run_rb (N : ℕ) (c : Complex) (x : ℕ → ℚ) (n : ℕ) :
    (run N c x n).rb = RingBuffer.init.writeAll ((List.range n).map x) := by
  induction n with
  | zero => rfl
  | succ n ih =>
    rw [List.range_succ, List.map_append, RingBuffer.writeAll_append, ← ih]
    rfl

theorem getD_map_range (x : ℕ → ℚ) (m i : ℕ) (h : i < m) :
    ((List.range m).map x).getD i 0 = x i := by
  rw [List.getD_eq_getElem _ _ (by simpa using h)]
  simp

/-- what the `previous` read of the per-sample loop yields during `run`:
the sample `N` positions back in the stream once the window has filled,
and the untouched zero initialisation of the buffer before that.  Valid
whenever the window length is below the buffer capacity. -/
theorem read_run_write (N : ℕ) (c : Complex) (x : ℕ → ℚ) (n : ℕ)
    (hN : N < RingBuffer.size) :
    ((run N c x n).rb.write (x n)).read N = if N ≤ n then x (n - N) else 0 := by
  have hrb : (run N c x n).rb.write (x n)
      = RingBuffer.init.writeAll ((List.range (n + 1)).map x) := by
    rw [List.range_succ, List.map_append, RingBuffer.writeAll_append, run_rb]
    rfl
  rw [hrb]
  split
  · rename_i h
    rw [RingBuffer.read_writeAll_lt _ _ _ hN (by simp; omega)]
    rw [show ((List.range (n + 1)).map x).length - 1 - N = n - N by simp]
    exact getD_map_range x (n + 1) (n - N) (by omega)
  · rw [RingBuffer.read_writeAll_ge _ _ _ hN (by simp; omega)]
    simp

/-- shifting a sum over the sample window one step forward: the new top
sample enters, and the bottom sample leaves once the window is full. -/
theorem sum_Ico_slide {M : Type} [AddCommGroup M] (g : ℕ → M) (n N : ℕ) :
    ∑ j ∈ Finset.Ico (n + 1 - N) (n + 1), g j
      = ((∑ j ∈ Finset.Ico (n - N) n, g j) + g n)
        - (if N ≤ n then g (n - N) else 0) := by
  rcases le_or_lt N n with h | h
  · have h2 : ∑ j ∈ Finset.Ico (n - N) (n + 1), g j
        = (∑ j ∈ Finset.Ico (n - N) n, g j) + g n :=
      Finset.sum_Ico_succ_top (by omega) g
    have h3 : ∑ j ∈ Finset.Ico (n - N) (n + 1), g j
        = g (n - N) + ∑ j ∈ Finset.Ico ((n - N) + 1) (n + 1), g j :=
      Finset.sum_eq_sum_Ico_succ_bot (by omega) g
    rw [if_pos h, show n + 1 - N = (n - N) + 1 by omega]
    refine eq_sub_of_add_eq ?_
    rw [add_comm, ← h3, h2]
  · rw [if_neg (by omega), sub_zero, show n + 1 - N = 0 by omega,
      show n - N = 0 by omega]
    exact Finset.sum_Ico_succ_top (by omega) g

/-- closed form of the accumulated spectral value maintained by the
sliding recurrence: it is the single-frequency DFT sum over exactly the
samples currently inside the `N`-long window (`c ^ (n - j)` is
`e^{-i 2 pi k (j - n) / N}` for the concrete rotation coefficient, for
which `c ^ N = 1`). -/
theorem run_dft (N : ℕ) (c : Complex) (x : ℕ → ℚ) (hN : N < RingBuffer.size)
    (hc : c ^ N = 1) (n : ℕ) :
    (run N c x n).dft
      = ∑ j ∈ Finset.Ico (n - N) n, Complex.ofQ (x j) * c ^ (n - j) := by
  induction n with
  | zero =>
    simp only [run, initState, Nat.zero_sub, Finset.Ico_self, Finset.sum_empty]
    rfl
  | succ n ih =>
    have hstep : (run N c x (n + 1)).dft
        = (((run N c x n).dft.sub
            (Complex.ofQ (((run N c x n).rb.write (x n)).read N))).add
          (Complex.ofQ (x n))).mul c := rfl
    rw [hstep, Complex.sub_def, Complex.add_def, Complex.mul_def,
      read_run_write N c x n hN, ih,
      sum_Ico_slide (fun j => Complex.ofQ (x j) * c ^ (n + 1 - j)) n N]
    have hA : ∑ j ∈ Finset.Ico (n - N) n, Complex.ofQ (x j) * c ^ (n + 1 - j)
        = (∑ j ∈ Finset.Ico (n - N) n, Complex.ofQ (x j) * c ^ (n - j)) * c := by
      rw [Finset.sum_mul]
      refine Finset.sum_congr rfl ?_
      intro j hj
      have hj2 := (Finset.mem_Ico.mp hj).2
      rw [show n + 1 - j = (n - j) + 1 by omega, pow_succ, mul_assoc]
    have hB : Complex.ofQ (x n) * c ^ (n + 1 - n) = Complex.ofQ (x n) * c := by
      rw [show n + 1 - n = 1 by omega, pow_one]
    rcases le_or_lt N n with h | h
    · rw [if_pos h, if_pos h, hA, hB]
      have hC : Complex.ofQ (x (n - N)) * c ^ (n + 1 - (n - N))
          = Complex.ofQ (x (n - N)) * c := by
        rw [show n + 1 - (n - N) = N + 1 by omega, pow_succ, hc, one_mul]
      rw [hC]
      ring
    · rw [if_neg (by omega), if_neg (by omega), hA, hB, Complex.ofQ_zero]
      ring

/-- closed form of the running window power maintained by the power
recurrence: the sum of squares of the samples currently inside the
window. -/
theorem run_totalPower (N : ℕ) (c : Complex) (x : ℕ → ℚ)
    (hN : N < RingBuffer.size) (n : ℕ) :
    (run N c x n).totalPower = ∑ j ∈ Finset.Ico (n - N) n, x j * x j := by
  induction n with
  | zero => simp [run, initState]
  | succ n ih =>
    have hstep : (run N c x (n + 1)).totalPower
        = (run N c x n).totalPower
          - ((run N c x n).rb.write (x n)).read N
            * ((run N c x n).rb.write (x n)).read N
          + x n * x n := rfl
    rw [hstep, read_run_write N c x n hN, ih,
      sum_Ico_slide (fun j => x j * x j) n N]
    rcases le_or_lt N n with h | h
    · rw [if_pos h, if_pos h]
      ring
    · rw [if_neg (by omega), if_neg (by omega)]
      ring


/-- model of the level computation of `SlidingDFT.process`
(src/sdft.js line 121): `this.dft.magnitude / Math.sqrt(this.totalPower / this.N)`.
Numerator and denominator are the square roots of the rational values
`magSq dft` and `totalPower / N`, so the squared level is rational.  The
IEEE-754 quotient is a finite number exactly when the denominator
`sqrt(P / N)` is positive; when `P / N = 0` the quotient is `0/0 = NaN`
(the numerator is then also zero, the window being all zeros) or `x/0 = Inf`,
and when `P / N < 0` the square root itself is NaN.  `none` models these
non-finite outcomes.  The source applies no clamping to the denominator. -/
def levelSqOpt (N : ℕ) (s : SDFTState) : Option ℚ :=
  if 0 < s.totalPower / (N : ℚ) then some (s.dft.magSq / (s.totalPower / (N : ℚ)))
  else none

/-- the construction-time constants and initial state established by the
`SlidingDFT` constructor. -/
structure SlidingDFTWorklet where
  k : ℕ
  N : ℕ
  coeff : Complex
  state : SDFTState

/-- the `SlidingDFT` constructor (src/sdft.js lines 61-79): `k = 440`,
`N = sampleRate`, `coeff = (new Complex(0, 2*pi*(k/N))).exp()`, a fresh
default ring buffer, `dft = new Complex()` and `totalPower = 0`.  The
transcendental coefficient value is the parameter `coeff`.  The
constructor performs no validation: in particular `N` is never compared
with the ring buffer capacity, and no configuration is ever rejected. -/
def SlidingDFTWorklet.construct (sampleRate : ℕ) (coeff : Complex) : SlidingDFTWorklet :=
  ⟨440, sampleRate, coeff, initState⟩

/-- exact integer-time samples of a unit sine at a quarter of the sample
rate: `sin(2 pi t / 4)` takes the exact rational values 0, 1, 0, -1.
This is the pure sine input of the spec's convergence scenario for a bin
with window length `N = 4` (frequency `sampleRate / 4`). -/
def sine4 (t : ℕ) : ℚ :=
  if t % 4 = 0 then 0 else if t % 4 = 1 then 1 else if t % 4 = 2 then 0 else -1

theorem sine4_period (t : ℕ) : sine4 (t + 4) = sine4 t := by
  have h : (t + 4) % 4 = t % 4 := by omega
  simp only [sine4, h]

/-- once the 4-sample window has filled with the exact quarter-rate sine,
the engine state is locked on: the squared DFT magnitude stays `(N/2)^2 = 4`
and the window power stays `N/2 = 2`, for every later sample count. -/
theorem sine4_run_locked (n : ℕ) (h : 4 ≤ n) :
    (run 4 ⟨0, 1⟩ sine4 n).dft.magSq = 4 ∧ (run 4 ⟨0, 1⟩ sine4 n).totalPower = 2 := by
  induction n with
  | zero => omega
  | succ n ih =>
    rcases Nat.lt_or_ge n 4 with h4 | h4
    · have hn : n = 3 := by omega
      subst hn
      refine ⟨?_, ?_⟩ <;>
        simp [run, stepSample, initState, RingBuffer.init, RingBuffer.write,
          RingBuffer.read, RingBuffer.size, sine4, Complex.ofQ, Complex.sub,
          Complex.add, Complex.mul, Complex.magSq] <;>
        norm_num
    · obtain ⟨ih1, ih2⟩ := ih h4
      have hprev : ((run 4 ⟨0, 1⟩ sine4 n).rb.write (sine4 n)).read 4 = sine4 n := by
        rw [read_run_write 4 ⟨0, 1⟩ sine4 n (by norm_num [RingBuffer.size]), if_pos h4]
        conv_rhs => rw [show n = (n - 4) + 4 by omega, sine4_period]
      have hstep_d : (run 4 ⟨0, 1⟩ sine4 (n + 1)).dft
          = (((run 4 ⟨0, 1⟩ sine4 n).dft.sub
              (Complex.ofQ (((run 4 ⟨0, 1⟩ sine4 n).rb.write (sine4 n)).read 4))).add
            (Complex.ofQ (sine4 n))).mul ⟨0, 1⟩ := rfl
      have hstep_p : (run 4 ⟨0, 1⟩ sine4 (n + 1)).totalPower
          = (run 4 ⟨0, 1⟩ sine4 n).totalPower
            - (((run 4 ⟨0, 1⟩ sine4 n).rb.write (sine4 n)).read 4)
              * (((run 4 ⟨0, 1⟩ sine4 n).rb.write (sine4 n)).read 4)
            + sine4 n * sine4 n := rfl
      refine ⟨?_, ?_⟩
      · rw [hstep_d, hprev, Complex.sub_def, Complex.add_def, Complex.mul_def]
        rw [show (run 4 ⟨0, 1⟩ sine4 n).dft - Complex.ofQ (sine4 n) + Complex.ofQ (sine4 n)
            = (run 4 ⟨0, 1⟩ sine4 n).dft by ring]
        rw [Complex.magSq_mul, ih1]
        norm_num [Complex.magSq]
      · rw [hstep_p, hprev, ih2]
        ring

/-- one frequency tracker of the generalized engine (spec section 3,
"Bin"): window length, rotation coefficient, accumulated complex value
and running window power. -/
structure Bin where
  N : ℕ
  coeff : Complex
  dft : Complex
  totalPower : ℚ

/-- the per-sample update of one bin: exactly the loop body of
src/sdft.js lines 112-119, with `previous` fetched for this bin's own
window length. -/
def Bin.update (b : Bin) (current previous : ℚ) : Bin :=
  { b with
    dft := ((b.dft.sub (Complex.ofQ previous)).add (Complex.ofQ current)).mul b.coeff
    totalPower := b.totalPower - previous * previous + current * current }

/-- the rational stand-in for a bin's raw output level (spec section 4.3
step 3): the square of `|S| / sqrt(P / N)`. -/
def Bin.levelSqRaw (b : Bin) : ℚ :=
  b.dft.magSq / (b.totalPower / (b.N : ℚ))

/-- Modelled from the spec: the multi-bin Filter Bank (spec sections 3
and 4.4).  The generalized `SlidingDFT` engine class instantiated by
`PianolizerNode` (src/js/pianolizer.js line 25) is not among the visible
sources - only its single-bin prototype (src/sdft.js) and its caller
are - so the bank layout follows the spec: the shared ring buffer and an
ordered list of bins. -/
structure Bank where
  rb : RingBuffer
  bins : List Bin

/-- Modelled from the spec (section 4.4 Behavior): for one incoming
sample, write it to the shared history buffer, then update every bin
with that sample as `current` and the buffer's `read(bin.N)` as
`previous`.  The per-sample update itself is the visible loop of
src/sdft.js lines 110-119. -/
def Bank.stepSample (bk : Bank) (x : ℚ) : Bank :=
  let rb := bk.rb.write x
  { rb := rb, bins := bk.bins.map fun b => b.update x (rb.read b.N) }

/-- Modelled from the spec (section 4.4): the bank's `process` consumes
the samples of one block in arrival order, one state update per sample. -/
def Bank.process (bk : Bank) (xs : List ℚ) : Bank :=
  xs.foldl Bank.stepSample bk

theorem Bank.process_cons (bk : Bank) (x : ℚ) (xs : List ℚ) :
    Bank.process bk (x :: xs) = Bank.process (bk.stepSample x) xs := rfl

theorem Bank.process_append (bk : Bank) (xs ys : List ℚ) :
    Bank.process bk (xs ++ ys) = Bank.process (Bank.process bk xs) ys := by
  simp [Bank.process, List.foldl_append]

theorem Bank.process_rb (bk : Bank) (xs : List ℚ) :
    (Bank.process bk xs).rb = bk.rb.writeAll xs := by
  induction xs generalizing bk with
  | nil => rfl
  | cons x xs ih =>
    rw [Bank.process_cons, ih]
    rfl

/-- the state of `PianolizerNode` (src/js/pianolizer.js lines 14-26)
that `process` can mutate: the lazily allocated mixdown scratch buffer
`samples`, the engine (ring buffer and bins), the smoothed output vector
held across calls (spec section 3), and the message-throttling clock. -/
structure PianolizerNodeState where
  samples : Option (List ℚ)
  bank : Bank
  smoothed : List ℚ
  nextUpdateFrame : ℚ

/-- Modelled from the spec (section 4.4): exponential smoothing of the
output levels across calls, `smoothed[i] := smoothed[i]*(1-sf) + raw[i]*sf`.
The raw level `|S| / sqrt(P/N)` being irrational, the recurrence shape is
applied to the rational squared-level stand-ins; no claim depends on the
smoothed values. -/
def smoothStep (sf : ℚ) (old raw : List ℚ) : List ℚ :=
  List.zipWith (fun o r => o * (1 - sf) + r * sf) old raw

/-- `PianolizerNode.process` (src/js/pianolizer.js lines 57-103).
When no inputs are connected, zero channels are passed in and the method
returns `true` at once (lines 58-61), touching no state.  Otherwise it
takes the block length from the first channel (line 65), reallocates the
scratch buffer when the block length changed (lines 66-68), mixes all
ports and channels down to one mono block normalized by the channel
count `n = count / windowSize` (lines 70-89), feeds the block to the
engine with the smoothing parameter (line 92, modelled from the spec for
the engine side), and throttles the posting of the levels message by the
ambient clock `currentTime`, here an explicit argument (lines 95-98).
It always returns `true` (line 100). -/
def PianolizerNode.process (s : PianolizerNodeState)
    (input : List (List (List ℚ))) (smooth : ℚ) (currentTime : ℚ) :
    Bool × PianolizerNodeState :=
  if (input.getD 0 []).length = 0 then (true, s)
  else
    let windowSize := ((input.getD 0 []).getD 0 []).length
    let channelCount := (input.map fun port => port.length).sum
    let count : ℕ := channelCount * windowSize
    let n : ℚ := (count : ℚ) / (windowSize : ℚ)
    let mixed : List ℚ := (List.range windowSize).map fun i =>
      ((input.map fun port => (port.map fun ch => ch.getD i 0).sum).sum) / n
    let bank2 := s.bank.process mixed
    let raw := bank2.bins.map Bin.levelSqRaw
    let smoothed2 := smoothStep smooth s.smoothed raw
    let next2 := if s.nextUpdateFrame ≤ currentTime then currentTime + 1 / 60
      else s.nextUpdateFrame
    (true, ⟨some mixed, bank2, smoothed2, next2⟩)


/-- a concrete node state used to exercise `PianolizerNode.process`. -/
def demoNodeState : PianolizerNodeState := ⟨none, ⟨RingBuffer.init, []⟩, [], 0⟩

/-- C3: for every lookback `d < capacity` and every history with more than `d`
writes, `RingBuffer.read d` returns exactly the sample written `d` writes
before the most recently written one, whatever state the buffer was in
before those writes (reads are pure and do not disturb this, so the
property holds under any interleaving of `write` and `read` calls). -/
theorem ringBuffer_read_lookback (rb : RingBuffer) (xs : List ℚ) (d : ℕ)
    (hcap : d < RingBuffer.size) (hlen : d < xs.length) :
    (rb.writeAll xs).read d = xs.getD (xs.length - 1 - d) 0 :=
  RingBuffer.read_writeAll_lt rb xs d hcap hlen

/-- witness for C3: after writing 5, 7, 9 the lookback-1 read returns 7. -/
theorem ringBuffer_read_lookback_witness :
    (1 : ℕ) < RingBuffer.size ∧ (1 : ℕ) < ([5, 7, 9] : List ℚ).length ∧
      (RingBuffer.init.writeAll [5, 7, 9]).read 1 = 7 := by
  refine ⟨by norm_num [RingBuffer.size], by norm_num, ?_⟩
  have h := ringBuffer_read_lookback RingBuffer.init [5, 7, 9] 1
    (by norm_num [RingBuffer.size]) (by norm_num)
  simpa using h

/-- C9: immediately after `write v`, `read 0` returns `v`, the most recently
written sample, from any prior buffer state (a behaviour the code defines
even though the spec leaves lookback 0 out of its contract). -/
theorem ringBuffer_read_zero_after_write (rb : RingBuffer) (v : ℚ) :
    (rb.write v).read 0 = v :=
  RingBuffer.read_write_zero rb v

/-- C5: feeding a sample stream through the per-sample loop of
`SlidingDFT.process` in any block chunking produces the same final engine
state (ring buffer contents, accumulated `dft`, window power) as feeding
it in one single block: consecutive `process` calls compose, and a whole
partition of the stream folds to the same state; in particular one call
of 256 samples equals two successive calls of 128. -/
theorem processSamples_block_split (N : ℕ) (c : Complex) (s : SDFTState) :
    (∀ xs ys : List ℚ,
        processSamples N c s (xs ++ ys)
          = processSamples N c (processSamples N c s xs) ys)
      ∧ ∀ blocks : List (List ℚ),
          processSamples N c s blocks.flatten
            = blocks.foldl (processSamples N c) s := by
  constructor
  · exact fun xs ys => processSamples_append N c s xs ys
  · intro blocks
    induction blocks generalizing s with
    | nil => rfl
    | cons b bs ih =>
      rw [List.flatten_cons, processSamples_append, List.foldl_cons, ih]

/-- C2: for a stream of length `L ≥ N` fed into the zero-initialized bin,
the incremental recurrence `S := (S - previous + current) * coeff` leaves
`S` equal to the batch single-frequency DFT sum over the most recent
`N`-sample window (written with the rotation `c ^ (N - m)`, which for the
concrete coefficient `e^{i 2 pi k / N}` with `c ^ N = 1` is exactly
`e^{-i 2 pi k m / N}`).  The hypotheses are the construction facts: the
window fits the history buffer and the coefficient is an `N`-th root of
unity. -/
theorem dft_recurrence_eq_batch_window (N : ℕ) (c : Complex) (x : ℕ → ℚ) (L : ℕ)
    (hN : N < RingBuffer.size) (hc : c ^ N = 1) (hL : N ≤ L) :
    (run N c x L).dft
      = ∑ m ∈ Finset.range N, Complex.ofQ (x (L - N + m)) * c ^ (N - m) := by
  rw [run_dft N c x hN hc L, Finset.sum_Ico_eq_sum_range,
    show L - (L - N) = N by omega]
  refine Finset.sum_congr rfl ?_
  intro m hm
  have hm2 := Finset.mem_range.mp hm
  congr 2
  omega

/-- witness for C2: window 4, coefficient `i` (an exact 4th root of unity,
the rotation for bin `k = 1`), stream `x j = j`, six samples. -/
theorem dft_recurrence_eq_batch_window_witness :
    (4 : ℕ) < RingBuffer.size ∧ ((⟨0, 1⟩ : Complex) ^ 4 = 1) ∧ (4 : ℕ) ≤ 6 ∧
      (run 4 ⟨0, 1⟩ (fun j => (j : ℚ)) 6).dft
        = ∑ m ∈ Finset.range 4,
            Complex.ofQ (((6 - 4 + m : ℕ) : ℚ)) * (⟨0, 1⟩ : Complex) ^ (4 - m) := by
  have hc : (⟨0, 1⟩ : Complex) ^ 4 = 1 := by
    ext <;> simp [pow_succ]
  exact ⟨by norm_num [RingBuffer.size], hc, by norm_num,
    dft_recurrence_eq_batch_window 4 ⟨0, 1⟩ (fun j => (j : ℚ)) 6
      (by norm_num [RingBuffer.size]) hc (by norm_num)⟩

/-- C4: the running window power maintained by
`P := P - previous^2 + current^2` from the zero state equals, after any
number of processed samples, the sum of squares of the samples inside the
window, and is therefore non-negative (exact arithmetic). -/
theorem totalPower_eq_window_energy (N : ℕ) (c : Complex) (x : ℕ → ℚ) (n : ℕ)
    (hN : N < RingBuffer.size) :
    (run N c x n).totalPower = (∑ j ∈ Finset.Ico (n - N) n, x j * x j)
      ∧ 0 ≤ (run N c x n).totalPower := by
  have h := run_totalPower N c x hN n
  refine ⟨h, ?_⟩
  rw [h]
  exact Finset.sum_nonneg fun j _ => mul_self_nonneg (x j)

/-- witness for C4: window 2, stream `1, 2, 3`; after three samples the
power is `2^2 + 3^2 = 13` and non-negative. -/
theorem totalPower_eq_window_energy_witness :
    (2 : ℕ) < RingBuffer.size
      ∧ (run 2 ⟨0, 1⟩ (fun j => (j : ℚ) + 1) 3).totalPower = 13
      ∧ 0 ≤ (run 2 ⟨0, 1⟩ (fun j => (j : ℚ) + 1) 3).totalPower := by
  have h := totalPower_eq_window_energy 2 ⟨0, 1⟩ (fun j => (j : ℚ) + 1) 3
    (by norm_num [RingBuffer.size])
  refine ⟨by norm_num [RingBuffer.size], ?_, h.2⟩
  rw [h.1]
  rw [show Finset.Ico (3 - 2) 3 = Finset.Ico 1 3 from rfl,
    Finset.sum_Ico_succ_top (by norm_num), Finset.sum_Ico_succ_top (by norm_num),
    Finset.Ico_self, Finset.sum_empty]
  norm_num

/-- C1 counterexample: feeding four zero samples to a zero-initialized
window-4 bin leaves `P = 0`; the level expression of src/sdft.js line 121
divides by `sqrt(0 / 4) = 0` with no clamping, so the IEEE result is the
non-finite `0 / 0` (modelled `none`) - not the `0.0` the claim,
promises. -/
theorem silence_level_counterexample :
    levelSqOpt 4 (run 4 ⟨0, 1⟩ (fun _ => 0) 4) = none := by
  have hp : (run 4 ⟨0, 1⟩ (fun _ => 0) 4).totalPower = 0 := by
    rw [run_totalPower 4 ⟨0, 1⟩ (fun _ => 0) (by norm_num [RingBuffer.size]) 4]
    simp
  simp [levelSqOpt, hp]

/-- C1 amended: whenever every sample inside the current window is zero,
the window power is exactly zero, the denominator of the level expression
is zero (nothing clamps it away from zero), and the computed level is the
non-finite `0 / 0` (modelled `none`) rather than `0.0`. -/
theorem silence_level_not_clamped (N : ℕ) (c : Complex) (x : ℕ → ℚ) (n : ℕ)
    (hN : N < RingBuffer.size) (hx : ∀ j, n - N ≤ j → j < n → x j = 0) :
    (run N c x n).totalPower = 0 ∧ levelSqOpt N (run N c x n) = none := by
  have hp : (run N c x n).totalPower = 0 := by
    rw [run_totalPower N c x hN n]
    refine Finset.sum_eq_zero fun j hj => ?_
    have hj2 := Finset.mem_Ico.mp hj
    rw [hx j hj2.1 hj2.2]
    ring
  exact ⟨hp, by simp [levelSqOpt, hp]⟩

/-- witness for the amended C1: six zero samples, window 4. -/
theorem silence_level_not_clamped_witness :
    (4 : ℕ) < RingBuffer.size
      ∧ ((run 4 ⟨0, 1⟩ (fun _ => 0) 6).totalPower = 0
        ∧ levelSqOpt 4 (run 4 ⟨0, 1⟩ (fun _ => 0) 6) = none) :=
  ⟨by norm_num [RingBuffer.size],
    silence_level_not_clamped 4 ⟨0, 1⟩ (fun _ => 0) 6
      (by norm_num [RingBuffer.size]) (fun j _ _ => rfl)⟩

/-- C6 counterexample: a window-4 bin tuned to a quarter of the sample
rate (rotation coefficient `i`), fed the exact unit sine at that
frequency for 8 samples (window long since filled), computes a squared
level of `8` - a level of `2 * sqrt 2 = N / sqrt 2`, far outside any
small tolerance around the claimed `1.0` (any level within `1/2` of `1.0`
would have its square below `(3/2)^2 < 8`). -/
theorem sine_level_counterexample :
    levelSqOpt 4 (run 4 ⟨0, 1⟩ sine4 8) = some 8 ∧ ((3 : ℚ) / 2) ^ 2 < 8 := by
  obtain ⟨h1, h2⟩ := sine4_run_locked 8 (by norm_num)
  constructor
  · unfold levelSqOpt
    rw [h1, h2]
    norm_num
  · norm_num

/-- C6 amended: for the bin with window length `N = sampleRate / f` fed a
unit-amplitude sine at exactly its tuned frequency (here in exact
arithmetic: `N = 4`, coefficient `i`, samples `0, 1, 0, -1` repeating),
once the window has filled the level converges and stays locked - but at
`N / sqrt 2` (squared level `N^2 / 2 = 8`), not at approximately `1.0`:
`|S| = N/2` and `sqrt(P/N) = 1/sqrt 2` make the quotient grow with `N`. -/
theorem sine_level_locked (n : ℕ) (h : 4 ≤ n) :
    levelSqOpt 4 (run 4 ⟨0, 1⟩ sine4 n) = some 8 := by
  obtain ⟨h1, h2⟩ := sine4_run_locked n h
  unfold levelSqOpt
  rw [h1, h2]
  norm_num

/-- witness for the amended C6: right when the window first fills. -/
theorem sine_level_locked_witness :
    4 ≤ 4 ∧ levelSqOpt 4 (run 4 ⟨0, 1⟩ sine4 4) = some 8 :=
  ⟨by norm_num, sine_level_locked 4 (by norm_num)⟩

/-- C7 counterexample: constructing the worklet with
`sampleRate = 65536` sets the window length equal to the buffer capacity,
yet construction succeeds unconditionally (no rejection exists in the
constructor), and the very first history read `read N` after a write
already returns the just-written sample instead of `N`-old history -
silent corruption instead of the fail-fast the claim requires. -/
theorem construction_no_failfast_counterexample :
    (SlidingDFTWorklet.construct 65536 ⟨1, 0⟩).N = 65536
      ∧ RingBuffer.size ≤ (SlidingDFTWorklet.construct 65536 ⟨1, 0⟩).N
      ∧ ((SlidingDFTWorklet.construct 65536 ⟨1, 0⟩).state.rb.write 1).read
          (SlidingDFTWorklet.construct 65536 ⟨1, 0⟩).N = 1 := by
  refine ⟨rfl, by norm_num [RingBuffer.size, SlidingDFTWorklet.construct], ?_⟩
  simp [SlidingDFTWorklet.construct, initState, RingBuffer.init,
    RingBuffer.write, RingBuffer.read, RingBuffer.size]

/-- C7 amended: the constructor performs no validation at all - every
sample rate is accepted and yields a normally constructed engine with
`N = sampleRate` and zeroed state - and at window length equal to the
capacity, `read N` right after a write silently returns the sample just
written (aliased data) during processing, for any buffer state. -/
theorem construction_accepts_all (sr : ℕ) (c : Complex) (rb : RingBuffer) (v : ℚ) :
    (SlidingDFTWorklet.construct sr c).N = sr
      ∧ (SlidingDFTWorklet.construct sr c).state = initState
      ∧ (rb.write v).read RingBuffer.size = v := by
  refine ⟨rfl, rfl, ?_⟩
  simp only [RingBuffer.read, RingBuffer.write, RingBuffer.size, Nat.cast_ofNat]
  split
  · rfl
  · exfalso; omega

/-- C8: the bank's `process` consumes exactly the samples of the given
block, in arrival order, whatever its (possibly varying) length: the
history buffer receives precisely the block's samples in order, the write
cursor advances by exactly the block length (one write per sample), and
processing is per-sample sequential (a block extended by one sample is
the processed block followed by one more per-sample update). -/
theorem bank_process_consumes_block (bk : Bank) (xs : List ℚ) (x : ℚ) :
    (Bank.process bk xs).rb = bk.rb.writeAll xs
      ∧ (Bank.process bk xs).rb.index = bk.rb.index + xs.length
      ∧ Bank.process bk (xs ++ [x]) = (Bank.process bk xs).stepSample x := by
  refine ⟨Bank.process_rb bk xs, ?_, ?_⟩
  · rw [Bank.process_rb bk xs, RingBuffer.writeAll_index]
  · rw [Bank.process_append]
    rfl

/-- C10: when zero input channels are connected (`input[0]` is empty),
`PianolizerNode.process` returns `true` immediately and the whole node
state - scratch buffer, ring buffer, every bin's `S` and `P`, smoothed
output vector, throttling clock - is left untouched. -/
theorem node_process_no_input_unchanged (s : PianolizerNodeState)
    (input : List (List (List ℚ))) (sf t : ℚ)
    (h : (input.getD 0 []).length = 0) :
    PianolizerNode.process s input sf t = (true, s) := by
  unfold PianolizerNode.process
  rw [if_pos h]

/-- witness for C10: a single connected port with zero channels. -/
theorem node_process_no_input_unchanged_witness :
    (([[]] : List (List (List ℚ))).getD 0 []).length = 0
      ∧ PianolizerNode.process demoNodeState [[]] 0 0 = (true, demoNodeState) :=
  ⟨rfl, node_process_no_input_unchanged demoNodeState [[]] 0 0 rfl⟩

end Pianolizer
